import Mathlib

/-!
Shallow embedding of the `tokencount` CLI (`src/main.rs`) together with proofs
about its statistics, top-N selection, aggregation and output pipeline.

Modelling conventions:
* Rust `u64`/`usize` values are modelled as `Nat`; the program only compares,
  adds and divides them, so wrap-around is unreachable for actual inputs.
* `f64` arithmetic (the `average` field and `percentile`'s rank computation)
  is modelled exactly over `ℚ`; the literals `0.50`, `0.90`, `0.99` are read
  as the rationals they denote in the source text.  The IEEE-754 roundings of
  `0.90` and `0.99` differ from those rationals by less than `2⁻⁵²`, which
  cannot move a ceiling at any realistic file count.
* Rust `String::cmp` (byte-wise lexicographic over UTF-8) is modelled as
  code-point lexicographic comparison of the character list; the two orders
  coincide for valid UTF-8.
* The filesystem and the BPE tokenizer are external capabilities of the
  program; they enter the model as explicit parameters (`FsModel`, `encode`).
-/

namespace Tokencount

/-! ### Data model (`FileStat`, `Summary`, `SortBy`, `ProcessError` of `src/main.rs`) -/

/-- `struct FileStat { path: String, tokens: u64 }` (`src/main.rs:146`). -/
structure FileStat where
  path : String
  tokens : Nat
deriving DecidableEq, Repr

/-- `struct Summary` (`src/main.rs:152`); `average: f64` is modelled over `ℚ`. -/
structure Summary where
  files : Nat
  total : Nat
  average : ℚ
  p50 : Nat
  p90 : Nat
  p99 : Nat
  top : Option (List FileStat)
deriving DecidableEq

/-- `enum SortBy { Path, Tokens }` (`src/main.rs:140`). -/
inductive SortBy where
  | path
  | tokens
deriving DecidableEq, Repr

/-- `enum ProcessError` (`src/main.rs:163`); the `std::io::Error` payloads are
not observable by the rest of the program and are not modelled. -/
inductive ProcessError where
  | metadata (path : String)
  | tooLarge (path : String) (size limit : Nat)
  | read (path : String)
deriving DecidableEq, Repr

/-- The filesystem as the program observes it: `fs::metadata(path).len()`
(`none` when metadata resolution fails), `fs::read_to_string(path)` (`none`
when the read or the UTF-8 decode fails), and `normalize_display_path`
(which consults the ambient working directory). -/
structure FsModel where
  metadataLen : String → Option Nat
  readToString : String → Option String
  display : String → String

/-! ### String comparison

Rust compares `String`s byte-wise over UTF-8; for valid UTF-8 this agrees
with code-point lexicographic order, which is what we embed. -/

/-- Rust `Ord::cmp` on a linearly ordered type. -/
def cmpLin {α : Type} [LinearOrder α] (x y : α) : Ordering :=
  if x < y then Ordering.lt else if y < x then Ordering.gt else Ordering.eq

/-- Lexicographic comparison of character lists, as Rust's `str` comparison. -/
def cmpList : List Char → List Char → Ordering
  | [], [] => Ordering.eq
  | [], _ :: _ => Ordering.lt
  | _ :: _, [] => Ordering.gt
  | a :: as, b :: bs => (cmpLin a b).then (cmpList as bs)

/-- `String::cmp` as used by the path comparisons of `src/main.rs`. -/
def cmpStr (x y : String) : Ordering := cmpList x.data y.data

/-! ### Sort relations of `output_results` (`src/main.rs:404`)

Rust's `slice::sort_by` with comparator `c` is a stable sort putting `a`
before `b` whenever `c(a, b) != Greater`; `List.insertionSort` is likewise
stable, so it embeds `sort_by` faithfully once given that relation. -/

/-- Comparator of `all.sort_by(|a, b| a.path.cmp(&b.path))` (`src/main.rs:406`). -/
def pathCmp (a b : FileStat) : Ordering := cmpStr a.path b.path

/-- Comparator of
`token_sorted.sort_by(|a, b| b.tokens.cmp(&a.tokens).then_with(|| a.path.cmp(&b.path)))`
(`src/main.rs:409`): tokens descending, ties by ascending path. -/
def tokenCmp (a b : FileStat) : Ordering :=
  (cmpLin b.tokens a.tokens).then (cmpStr a.path b.path)

/-- The sort relation induced by `pathCmp`. -/
def pathLe (a b : FileStat) : Prop := pathCmp a b ≠ Ordering.gt

/-- The sort relation induced by `tokenCmp`. -/
def tokenLe (a b : FileStat) : Prop := tokenCmp a b ≠ Ordering.gt

instance : DecidableRel pathLe := fun a b =>
  inferInstanceAs (Decidable (pathCmp a b ≠ Ordering.gt))

instance : DecidableRel tokenLe := fun a b =>
  inferInstanceAs (Decidable (tokenCmp a b ≠ Ordering.gt))

/-! ### The statistics engine -/

/-- `all.sort_by(|a, b| a.path.cmp(&b.path))` (`src/main.rs:406`). -/
def sortByPath (l : List FileStat) : List FileStat := List.insertionSort pathLe l

/-- `token_sorted.sort_by(|a, b| b.tokens.cmp(&a.tokens).then_with(...))`
(`src/main.rs:409`). -/
def sortByTokens (l : List FileStat) : List FileStat := List.insertionSort tokenLe l

/-- `counts.sort_unstable()` (`src/main.rs:452`); on `u64` any correct sort
produces the unique ascending rearrangement. -/
def sortCounts (l : List Nat) : List Nat := List.insertionSort (· ≤ ·) l

/-- Index computed inside `percentile` (`src/main.rs:469-470`):
`rank = ceil(p * len).max(1)` followed by `rank.saturating_sub(1).min(len - 1)`. -/
def percentileIndex (sorted : List Nat) (p : ℚ) : Nat :=
  min (max ⌈p * (sorted.length : ℚ)⌉₊ 1 - 1) (sorted.length - 1)

/-- `fn percentile(sorted: &[u64], percentile: f64) -> u64` (`src/main.rs:465`). -/
def percentile (sorted : List Nat) (p : ℚ) : Nat :=
  if sorted.isEmpty then 0
  else sorted.getD (percentileIndex sorted p) 0

/-- Nearest-rank percentile exactly as the specification words it: `0` for an
empty distribution, and otherwise the value at 1-based rank `ceil(p * n)`
clamped to `[1, n]` in the ascending sort of the counts.  This is the
specification-side definition that `percentile` is checked against. -/
def percentileSpec (counts : List Nat) (p : ℚ) : Nat :=
  let n := counts.length
  if n = 0 then 0
  else (sortCounts counts).getD (min n (max 1 ⌈p * (n : ℚ)⌉₊) - 1) 0

/-- `fn build_summary(all_stats: &[FileStat], top: Option<Vec<FileStat>>) -> Summary`
(`src/main.rs:443`). -/
def build_summary (all_stats : List FileStat) (top : Option (List FileStat)) : Summary :=
  let files := all_stats.length
  let total := (all_stats.map FileStat.tokens).sum
  let average : ℚ := if files > 0 then (total : ℚ) / (files : ℚ) else 0
  let counts := sortCounts (all_stats.map FileStat.tokens)
  { files := files
    total := total
    average := average
    p50 := percentile counts (1 / 2)
    p90 := percentile counts (9 / 10)
    p99 := percentile counts (99 / 100)
    top := top }

/-- The re-sort applied to the displayed list (`src/main.rs:421-428`). -/
def sortKeyed (sort : SortBy) (l : List FileStat) : List FileStat :=
  match sort with
  | SortBy.path => sortByPath l
  | SortBy.tokens => sortByTokens l

/-- The ordered display list computed by `output_results` (`src/main.rs:404-428`). -/
def displayStats (stats : List FileStat) (sort : SortBy) (top : Option Nat) :
    List FileStat :=
  let all := sortByPath stats
  let tokenSorted := sortByTokens stats
  let display :=
    match top with
    | some n => tokenSorted.take n
    | none =>
      match sort with
      | SortBy.path => all
      | SortBy.tokens => tokenSorted
  match top with
  | some _ => sortKeyed sort display
  | none => display

/-- `fn output_results(stats: &[FileStat], args: &Args)` (`src/main.rs:404`):
the ordered display list and the summary handed to the printers. -/
def output_results (stats : List FileStat) (sort : SortBy) (top : Option Nat) :
    List FileStat × Summary :=
  (displayStats stats sort top,
   build_summary stats (top.map fun n => (sortByTokens stats).take n))

/-! ### Per-file processing and aggregation -/

/-- Read-and-encode tail of `process_file` (`src/main.rs:392-401`). -/
def readAndCount (fs : FsModel) (encode : String → List Nat) (path : String)
    (displayPath : String) : Except ProcessError FileStat :=
  match fs.readToString path with
  | none => Except.error (ProcessError.read displayPath)
  | some contents => Except.ok ⟨displayPath, (encode contents).length⟩

/-- `fn process_file(path, max_bytes, encoding)` (`src/main.rs:371`). -/
def process_file (fs : FsModel) (encode : String → List Nat) (path : String)
    (maxBytes : Option Nat) : Except ProcessError FileStat :=
  match fs.metadataLen path with
  | none => Except.error (ProcessError.metadata (fs.display path))
  | some len =>
    match maxBytes with
    | some limit =>
      if limit < len then
        Except.error (ProcessError.tooLarge (fs.display path) len limit)
      else readAndCount fs encode path (fs.display path)
    | none => readAndCount fs encode path (fs.display path)

/-- `fn count_tokens(files, args, encoding)` (`src/main.rs:344`): every
candidate is processed; `Ok` results are kept, every `Err` is dropped (the
logging branches only differ in log level). -/
def count_tokens (fs : FsModel) (encode : String → List Nat)
    (files : List String) (maxBytes : Option Nat) : List FileStat :=
  files.filterMap fun path => (process_file fs encode path maxBytes).toOption

/-! ### ndjson output -/

/-- `Args::with_summary` (`src/main.rs:121-129`). -/
def with_summary (noSummaryFlag withSummaryFlag : Bool) : Bool :=
  if noSummaryFlag then false
  else if withSummaryFlag then true
  else true

/-- One line of ndjson output; serialisation to bytes happens in
`serde_json`, an external collaborator, so lines are modelled structurally. -/
inductive NdjsonLine where
  | file (stat : FileStat)
  | summary (s : Summary)
deriving DecidableEq

/-- `fn print_ndjson(stats, summary, with_summary)` (`src/main.rs:517`). -/
def print_ndjson (stats : List FileStat) (s : Summary) (withSummary : Bool) :
    List NdjsonLine :=
  stats.map NdjsonLine.file ++ if withSummary then [NdjsonLine.summary s] else []

/-! ### Extension filtering -/

/-- Rust `char::to_ascii_lowercase` / the ASCII fragment of
`str::to_lowercase` (the two agree on every ASCII extension). -/
def asciiLowerChar (c : Char) : Char :=
  if 'A' ≤ c ∧ c ≤ 'Z' then Char.ofNat (c.toNat + 32) else c

/-- Character-wise lowercasing of a string, as applied to extensions. -/
def lowerStr (s : String) : String := String.mk (s.data.map asciiLowerChar)

/-- `if ext.starts_with('.') { ext.remove(0); }` (`src/main.rs:110-112`). -/
def stripLeadingDot (s : String) : String :=
  match s.data with
  | '.' :: rest => String.mk rest
  | _ => s

/-- `Args::include_extensions` (`src/main.rs:103-115`): default `elm`, strip
one leading dot, lowercase; the `HashSet` is modelled by list membership. -/
def include_extensions (includeExt : List String) : List String :=
  let exts := if includeExt.isEmpty then ["elm"] else includeExt
  (exts.map stripLeadingDot).map lowerStr

/-- Characters after the last `'.'` of the list, if any. -/
def afterLastDot : List Char → Option (List Char)
  | [] => none
  | c :: cs =>
    match afterLastDot cs with
    | some e => some e
    | none => if c = '.' then some cs else none

/-- Rust `Path::extension` on a file name: the portion after the last `'.'`,
searched from the second character on (so a leading dot alone never yields an
extension), with `".."` special-cased to `None`. -/
def extensionOf (name : String) : Option String :=
  if name = ".." then none
  else
    match name.data with
    | [] => none
    | _ :: rest => (afterLastDot rest).map String.mk

/-- The per-file extension gate of `collect_files` (`src/main.rs:325-331`):
a file with an extension is kept iff its ASCII-lowercased extension is in the
configured set; a file without an extension is skipped. -/
def extensionAdmits (includeExts : List String) (name : String) : Bool :=
  match extensionOf name with
  | some ext => includeExts.contains (lowerStr ext)
  | none => false

/-! ### A small concrete filesystem, used to instantiate the theorems -/

/-- A four-file filesystem exercising every branch of `process_file`. -/
def fsEx : FsModel where
  metadataLen q :=
    if q = "nometa.elm" then none else if q = "big.elm" then some 10 else some 1
  readToString q := if q = "bad.elm" then none else some "ab"
  display q := q

/-- A concrete stand-in tokenizer: one token per character. -/
def encodeEx (s : String) : List Nat := s.data.map Char.toNat

/-! ### Order-theoretic facts about the comparators -/

theorem cmpLin_eq_lt {α : Type} [LinearOrder α] (x y : α) :
    cmpLin x y = Ordering.lt ↔ x < y := by
  unfold cmpLin
  split_ifs with h1 h2
  · exact iff_of_true rfl h1
  · exact iff_of_false (by simp) h1
  · exact iff_of_false (by simp) h1

theorem cmpLin_eq_gt {α : Type} [LinearOrder α] (x y : α) :
    cmpLin x y = Ordering.gt ↔ y < x := by
  unfold cmpLin
  split_ifs with h1 h2
  · exact iff_of_false (by simp) (asymm h1)
  · exact iff_of_true rfl h2
  · exact iff_of_false (by simp) h2

theorem cmpLin_eq_eq {α : Type} [LinearOrder α] (x y : α) :
    cmpLin x y = Ordering.eq ↔ x = y := by
  unfold cmpLin
  split_ifs with h1 h2
  · exact iff_of_false (by simp)
      (fun h => absurd h1 (by rw [h]; exact lt_irrefl y))
  · exact iff_of_false (by simp)
      (fun h => absurd h2 (by rw [h]; exact lt_irrefl y))
  · exact iff_of_true rfl (le_antisymm (le_of_not_lt h2) (le_of_not_lt h1))

theorem cmpLin_swap {α : Type} [LinearOrder α] (x y : α) :
    cmpLin y x = (cmpLin x y).swap := by
  rcases lt_trichotomy x y with h | h | h
  · rw [(cmpLin_eq_lt x y).mpr h, (cmpLin_eq_gt y x).mpr h]; rfl
  · subst h
    rw [(cmpLin_eq_eq x x).mpr rfl]; rfl
  · rw [(cmpLin_eq_gt x y).mpr h, (cmpLin_eq_lt y x).mpr h]; rfl

theorem cmpList_swap : ∀ as bs : List Char, cmpList bs as = (cmpList as bs).swap
  | [], [] => rfl
  | [], _ :: _ => rfl
  | _ :: _, [] => rfl
  | a :: as, b :: bs => by
    simp only [cmpList]
    rw [cmpLin_swap a b, cmpList_swap as bs]
    cases cmpLin a b <;> cases cmpList as bs <;> rfl

theorem cmpList_eq_iff : ∀ as bs : List Char, cmpList as bs = Ordering.eq ↔ as = bs
  | [], [] => by simp [cmpList]
  | [], _ :: _ => by simp [cmpList]
  | _ :: _, [] => by simp [cmpList]
  | a :: as, b :: bs => by
    simp only [cmpList]
    cases h : cmpLin a b with
    | lt =>
      have hab : a ≠ b := fun he => by
        rw [(cmpLin_eq_eq a b).mpr he] at h
        exact Ordering.noConfusion h
      simp [Ordering.then, hab]
    | eq =>
      have hab := (cmpLin_eq_eq a b).mp h
      subst hab
      simp [Ordering.then, cmpList_eq_iff as bs]
    | gt =>
      have hab : a ≠ b := fun he => by
        rw [(cmpLin_eq_eq a b).mpr he] at h
        exact Ordering.noConfusion h
      simp [Ordering.then, hab]

theorem then_ne_gt (o t : Ordering) :
    o.then t ≠ Ordering.gt ↔ (o = Ordering.lt ∨ (o = Ordering.eq ∧ t ≠ Ordering.gt)) := by
  cases o <;> simp [Ordering.then]

theorem cmpList_le_trans : ∀ as bs cs : List Char,
    cmpList as bs ≠ Ordering.gt → cmpList bs cs ≠ Ordering.gt →
    cmpList as cs ≠ Ordering.gt
  | [], bs, cs => by
    intro _ _
    cases cs <;> simp [cmpList]
  | _ :: _, [], _ => by
    intro h1 _
    exact absurd rfl h1
  | _ :: _, _ :: _, [] => by
    intro _ h2
    exact absurd rfl h2
  | a :: as, b :: bs, c :: cs => by
    intro h1 h2
    simp only [cmpList] at h1 h2 ⊢
    rw [then_ne_gt] at h1 h2 ⊢
    rcases h1 with h1 | ⟨h1e, h1t⟩
    · have hab := (cmpLin_eq_lt a b).mp h1
      rcases h2 with h2 | ⟨h2e, h2t⟩
      · have hbc := (cmpLin_eq_lt b c).mp h2
        exact Or.inl ((cmpLin_eq_lt a c).mpr (lt_trans hab hbc))
      · have hbc := (cmpLin_eq_eq b c).mp h2e
        exact Or.inl ((cmpLin_eq_lt a c).mpr (hbc ▸ hab))
    · have hab := (cmpLin_eq_eq a b).mp h1e
      subst hab
      rcases h2 with h2 | ⟨h2e, h2t⟩
      · exact Or.inl h2
      · exact Or.inr ⟨h2e, cmpList_le_trans as bs cs h1t h2t⟩

theorem cmpList_le_total (as bs : List Char) :
    cmpList as bs ≠ Ordering.gt ∨ cmpList bs as ≠ Ordering.gt := by
  rw [cmpList_swap as bs]
  cases cmpList as bs with
  | lt => exact Or.inl (fun h => Ordering.noConfusion h)
  | eq => exact Or.inl (fun h => Ordering.noConfusion h)
  | gt => exact Or.inr (fun h => Ordering.noConfusion h)

theorem cmpList_le_antisymm {as bs : List Char}
    (h1 : cmpList as bs ≠ Ordering.gt) (h2 : cmpList bs as ≠ Ordering.gt) :
    as = bs := by
  rw [cmpList_swap as bs] at h2
  cases h : cmpList as bs with
  | lt => rw [h] at h2; exact absurd rfl h2
  | eq => exact (cmpList_eq_iff as bs).mp h
  | gt => exact absurd h h1

theorem strMk_inj {a b : String} (h : a.data = b.data) : a = b :=
  congrArg String.mk h

theorem fileStat_ext {a b : FileStat} (hp : a.path = b.path)
    (ht : a.tokens = b.tokens) : a = b := by
  cases a
  cases b
  simp_all

instance : IsTotal FileStat pathLe :=
  ⟨fun a b => cmpList_le_total a.path.data b.path.data⟩

instance : IsTrans FileStat pathLe :=
  ⟨fun a b c => cmpList_le_trans a.path.data b.path.data c.path.data⟩

theorem pathLe_antisymm {a b : FileStat} (h1 : pathLe a b) (h2 : pathLe b a) :
    a.path = b.path :=
  strMk_inj (cmpList_le_antisymm h1 h2)

theorem tokenLe_iff (a b : FileStat) :
    tokenLe a b ↔
      b.tokens < a.tokens ∨ (b.tokens = a.tokens ∧ cmpStr a.path b.path ≠ Ordering.gt) := by
  unfold tokenLe tokenCmp
  rw [then_ne_gt]
  constructor
  · rintro (h | ⟨he, ht⟩)
    · exact Or.inl ((cmpLin_eq_lt b.tokens a.tokens).mp h)
    · exact Or.inr ⟨(cmpLin_eq_eq b.tokens a.tokens).mp he, ht⟩
  · rintro (h | ⟨he, ht⟩)
    · exact Or.inl ((cmpLin_eq_lt b.tokens a.tokens).mpr h)
    · exact Or.inr ⟨(cmpLin_eq_eq b.tokens a.tokens).mpr he, ht⟩

instance : IsTotal FileStat tokenLe := by
  constructor
  intro a b
  rw [tokenLe_iff, tokenLe_iff]
  rcases Nat.lt_trichotomy a.tokens b.tokens with h | h | h
  · exact Or.inr (Or.inl h)
  · rcases cmpList_le_total a.path.data b.path.data with hp | hp
    · exact Or.inl (Or.inr ⟨h.symm, hp⟩)
    · exact Or.inr (Or.inr ⟨h, hp⟩)
  · exact Or.inl (Or.inl h)

instance : IsTrans FileStat tokenLe := by
  constructor
  intro a b c hab hbc
  rw [tokenLe_iff] at hab hbc ⊢
  rcases hab with h1 | ⟨h1e, h1p⟩
  · rcases hbc with h2 | ⟨h2e, h2p⟩
    · exact Or.inl (lt_trans h2 h1)
    · exact Or.inl (h2e ▸ h1)
  · rcases hbc with h2 | ⟨h2e, h2p⟩
    · exact Or.inl (h1e ▸ h2)
    · exact Or.inr ⟨h2e.trans h1e, cmpList_le_trans _ _ _ h1p h2p⟩

instance : IsAntisymm FileStat tokenLe := by
  constructor
  intro a b hab hba
  rw [tokenLe_iff] at hab hba
  rcases hab with h1 | ⟨h1e, h1p⟩
  · rcases hba with h2 | ⟨h2e, h2p⟩
    · exact absurd h2 (Nat.lt_asymm h1)
    · exact absurd h1 (h2e ▸ lt_irrefl b.tokens)
  · rcases hba with h2 | ⟨h2e, h2p⟩
    · exact absurd h2 (h1e ▸ lt_irrefl a.tokens)
    · exact fileStat_ext (strMk_inj (cmpList_le_antisymm h1p h2p)) h1e.symm

/-! ### Generic helper lemmas -/

theorem percentile_eval (l : List Nat) (p : ℚ) (r : Nat)
    (h : ⌈p * (l.length : ℚ)⌉₊ = r) :
    percentile l p =
      if l.isEmpty then 0 else l.getD (min (max r 1 - 1) (l.length - 1)) 0 := by
  unfold percentile percentileIndex
  rw [h]

/-- `percentile` applied to the ascending sort computes exactly the
specification's clamped nearest rank. -/
theorem percentile_sortCounts_eq_spec (l : List Nat) (p : ℚ) :
    percentile (sortCounts l) p = percentileSpec l p := by
  by_cases h0 : l.length = 0
  · have hnil : l = [] := List.eq_nil_of_length_eq_zero h0
    subst hnil
    rfl
  · have hlen : (sortCounts l).length = l.length := List.length_insertionSort _ _
    have hemp : (sortCounts l).isEmpty = false := by
      cases hsc : sortCounts l with
      | nil => exact absurd (by rw [← hlen, hsc]; rfl) h0
      | cons a t => rfl
    unfold percentile percentileSpec percentileIndex
    rw [hemp, hlen, if_neg h0]
    simp only [Bool.false_eq_true, if_false]
    congr 1
    generalize ⌈p * (l.length : ℚ)⌉₊ = r
    omega

/-- Two permuted lists have the same `tokenLe` insertion sort. -/
theorem sortByTokens_eq_of_perm {l l' : List FileStat} (h : List.Perm l l') :
    sortByTokens l = sortByTokens l' :=
  List.eq_of_perm_of_sorted
    ((List.perm_insertionSort tokenLe l).trans
      (h.trans (List.perm_insertionSort tokenLe l').symm))
    (List.sorted_insertionSort tokenLe l) (List.sorted_insertionSort tokenLe l')

/-- Two permuted count lists have the same ascending sort. -/
theorem sortCounts_eq_of_perm {l l' : List Nat} (h : List.Perm l l') :
    sortCounts l = sortCounts l' :=
  List.eq_of_perm_of_sorted
    ((List.perm_insertionSort _ l).trans
      (h.trans (List.perm_insertionSort _ l').symm))
    (List.sorted_insertionSort _ l) (List.sorted_insertionSort _ l')

/-- `List.eq_of_perm_of_sorted` with antisymmetry required only on the
members of the lists involved. -/
theorem eq_of_perm_of_sorted_mem {α : Type} {r : α → α → Prop} :
    ∀ (l₁ l₂ : List α), List.Perm l₁ l₂ → List.Sorted r l₁ → List.Sorted r l₂ →
      (∀ a ∈ l₁, ∀ b ∈ l₁, r a b → r b a → a = b) → l₁ = l₂
  | [], _ => fun hp _ _ _ => (List.Perm.eq_nil hp.symm).symm
  | _ :: _, [] => fun hp _ _ _ => List.noConfusion (List.Perm.eq_nil hp)
  | a :: t, b :: u => fun hp hs₁ hs₂ ha => by
    have hab : a = b := by
      by_cases h : a = b
      · exact h
      · have ha2 : a ∈ b :: u := hp.mem_iff.mp (List.mem_cons_self a t)
        have hau : a ∈ u := by
          rcases List.mem_cons.mp ha2 with h' | h'
          · exact absurd h' h
          · exact h'
        have hba : r b a := List.rel_of_sorted_cons hs₂ a hau
        have hb1 : b ∈ a :: t := hp.symm.mem_iff.mp (List.mem_cons_self b u)
        have hbt : b ∈ t := by
          rcases List.mem_cons.mp hb1 with h' | h'
          · exact absurd h'.symm h
          · exact h'
        have hab' : r a b := List.rel_of_sorted_cons hs₁ b hbt
        exact ha a (List.mem_cons_self a t) b (List.mem_cons.mpr (Or.inr hbt)) hab' hba
    subst hab
    have ht : List.Perm t u := hp.cons_inv
    have := eq_of_perm_of_sorted_mem t u ht hs₁.of_cons hs₂.of_cons
      (fun x hx y hy => ha x (List.mem_cons_of_mem a hx) y (List.mem_cons_of_mem a hy))
    rw [this]

/-- Two permuted lists in which equal paths force equal entries have the same
`pathLe` insertion sort. -/
theorem sortByPath_eq_of_perm {l l' : List FileStat} (h : List.Perm l l')
    (hd : ∀ a ∈ l, ∀ b ∈ l, a.path = b.path → a = b) :
    sortByPath l = sortByPath l' := by
  apply eq_of_perm_of_sorted_mem (sortByPath l) (sortByPath l')
  · exact (List.perm_insertionSort pathLe l).trans
      (h.trans (List.perm_insertionSort pathLe l').symm)
  · exact List.sorted_insertionSort pathLe l
  · exact List.sorted_insertionSort pathLe l'
  · intro a haa b hbb hab hba
    have ha' : a ∈ l := (List.mem_insertionSort pathLe).mp haa
    have hb' : b ∈ l := (List.mem_insertionSort pathLe).mp hbb
    exact hd a ha' b hb' (pathLe_antisymm hab hba)

/-- Filtering away an element the partial map sends to `none` does not change
`filterMap`. -/
theorem filterMap_filter_ne {α β : Type} [DecidableEq α] (f : α → Option β)
    (p : α) (hp : f p = none) :
    ∀ l : List α, (l.filter fun q => q ≠ p).filterMap f = l.filterMap f
  | [] => rfl
  | q :: t => by
    by_cases hq : q = p
    · subst hq
      rw [List.filter_cons_of_neg (by simp), List.filterMap_cons_none hp]
      exact filterMap_filter_ne f q hp t
    · rw [List.filter_cons_of_pos (by simp [hq]), List.filterMap_cons,
        List.filterMap_cons, filterMap_filter_ne f p hp t]

theorem except_toOption_eq_some {ε α : Type} (e : Except ε α) (a : α) :
    e.toOption = some a ↔ e = Except.ok a := by
  cases e <;> simp [Except.toOption]

/-! ### Claim theorems -/

/-- C1: percentile over the successful files' token counts is the nearest-rank
percentile — `0` on an empty distribution, otherwise the value at 1-based rank
`ceil(p * n)` clamped to `[1, n]` in the ascending sort; in particular on
`[1, 2, 3]` p50 is `2` and p90 is `3`, and every percentile of the empty
distribution is `0`. -/
theorem percentile_is_nearest_rank (stats : List FileStat)
    (top : Option (List FileStat)) (p : ℚ) :
    percentile (sortCounts (stats.map FileStat.tokens)) p
      = percentileSpec (stats.map FileStat.tokens) p
    ∧ (build_summary stats top).p50 = percentileSpec (stats.map FileStat.tokens) (1 / 2)
    ∧ (build_summary stats top).p90 = percentileSpec (stats.map FileStat.tokens) (9 / 10)
    ∧ (build_summary stats top).p99 = percentileSpec (stats.map FileStat.tokens) (99 / 100)
    ∧ percentile [1, 2, 3] (1 / 2) = 2
    ∧ percentile [1, 2, 3] (9 / 10) = 3
    ∧ ((build_summary [] top).p50 = 0 ∧ (build_summary [] top).p90 = 0
        ∧ (build_summary [] top).p99 = 0) := by
  refine ⟨percentile_sortCounts_eq_spec _ p, percentile_sortCounts_eq_spec _ (1 / 2),
    percentile_sortCounts_eq_spec _ (9 / 10), percentile_sortCounts_eq_spec _ (99 / 100),
    ?_, ?_, rfl, rfl, rfl⟩
  · rw [percentile_eval [1, 2, 3] (1 / 2) 2]
    · rfl
    · have h3 : ((([1, 2, 3] : List Nat).length : Nat) : ℚ) = 3 := by norm_num
      rw [h3, show (1 / 2 : ℚ) * 3 = 3 / 2 by norm_num, Nat.ceil_eq_iff] <;> norm_num
  · rw [percentile_eval [1, 2, 3] (9 / 10) 3]
    · rfl
    · have h3 : ((([1, 2, 3] : List Nat).length : Nat) : ℚ) = 3 := by norm_num
      rw [h3, show (9 / 10 : ℚ) * 3 = 27 / 10 by norm_num, Nat.ceil_eq_iff] <;> norm_num

/-- C2: with a top-N limit the displayed list is the re-sort (by the requested
key) of the first `n` entries of the tokens-descending/path-ascending sort;
that sort is indeed ordered by `tokenLe`, every selected entry dominates every
dropped entry in that order, and the selected multiset does not depend on the
requested sort flag. -/
theorem topN_selection_independent_of_sort (stats : List FileStat) (n : Nat)
    (sort : SortBy) :
    displayStats stats sort (some n) = sortKeyed sort ((sortByTokens stats).take n)
    ∧ List.Sorted tokenLe (sortByTokens stats)
    ∧ (∀ a ∈ (sortByTokens stats).take n, ∀ b ∈ (sortByTokens stats).drop n, tokenLe a b)
    ∧ List.Perm (displayStats stats SortBy.path (some n))
        (displayStats stats SortBy.tokens (some n)) := by
  refine ⟨rfl, List.sorted_insertionSort tokenLe stats, ?_, ?_⟩
  · have hs : List.Sorted tokenLe (sortByTokens stats) :=
      List.sorted_insertionSort tokenLe stats
    rw [← List.take_append_drop n (sortByTokens stats)] at hs
    exact (List.pairwise_append.mp hs).2.2
  · exact (List.perm_insertionSort pathLe ((sortByTokens stats).take n)).trans
      (List.perm_insertionSort tokenLe ((sortByTokens stats).take n)).symm

/-- C2 witness: the characterisation instantiated on a concrete two-file run
with `--top 1`, including the domination property at concrete entries. -/
theorem topN_selection_independent_of_sort_witness :
    displayStats [⟨"a", 1⟩, ⟨"b", 2⟩] SortBy.path (some 1)
      = sortKeyed SortBy.path ((sortByTokens [⟨"a", 1⟩, ⟨"b", 2⟩]).take 1)
    ∧ tokenLe ⟨"b", 2⟩ ⟨"a", 1⟩ :=
  ⟨(topN_selection_independent_of_sort [⟨"a", 1⟩, ⟨"b", 2⟩] 1 SortBy.path).1,
   (topN_selection_independent_of_sort [⟨"a", 1⟩, ⟨"b", 2⟩] 1 SortBy.path).2.2.1
     ⟨"b", 2⟩ (by decide) ⟨"a", 1⟩ (by decide)⟩

/-- C3: aggregation returns exactly the stats of the candidates whose
processing succeeded; any candidate whose processing fails (in particular one
exceeding the max-bytes limit) contributes nothing to the result or to the
summary built from it. -/
theorem aggregation_is_successful_subset (fs : FsModel)
    (encode : String → List Nat) (files : List String) (mb : Option Nat) :
    (∀ s : FileStat, s ∈ count_tokens fs encode files mb ↔
        ∃ q ∈ files, process_file fs encode q mb = Except.ok s)
    ∧ (∀ (q : String) (e : ProcessError), process_file fs encode q mb = Except.error e →
        count_tokens fs encode files mb
            = count_tokens fs encode (files.filter fun x => x ≠ q) mb
          ∧ build_summary (count_tokens fs encode files mb) none
            = build_summary (count_tokens fs encode (files.filter fun x => x ≠ q) mb) none)
    ∧ (∀ (q : String) (len limit : Nat), fs.metadataLen q = some len →
        mb = some limit → limit < len →
        process_file fs encode q mb
          = Except.error (ProcessError.tooLarge (fs.display q) len limit)) := by
  refine ⟨?_, ?_, ?_⟩
  · intro s
    unfold count_tokens
    rw [List.mem_filterMap]
    constructor
    · rintro ⟨q, hq, hsome⟩
      exact ⟨q, hq, (except_toOption_eq_some _ _).mp hsome⟩
    · rintro ⟨q, hq, hok⟩
      exact ⟨q, hq, (except_toOption_eq_some _ _).mpr hok⟩
  · intro q e herr
    have hnone : (process_file fs encode q mb).toOption = none := by
      rw [herr]; rfl
    have heq : count_tokens fs encode files mb
        = count_tokens fs encode (files.filter fun x => x ≠ q) mb := by
      unfold count_tokens
      exact (filterMap_filter_ne _ q hnone files).symm
    exact ⟨heq, by rw [heq]⟩
  · intro q len limit hmeta hmb hlt
    subst hmb
    unfold process_file
    rw [hmeta]
    simp only [if_pos hlt]

/-- C3 witness: under `fsEx` with `--max-bytes 5`, `big.elm` (10 bytes) fails
as too large and dropping it from the candidate list leaves the aggregate
unchanged. -/
theorem aggregation_is_successful_subset_witness :
    count_tokens fsEx encodeEx ["a.elm", "big.elm"] (some 5)
      = count_tokens fsEx encodeEx
          ((["a.elm", "big.elm"] : List String).filter fun x => x ≠ "big.elm") (some 5)
    ∧ process_file fsEx encodeEx "big.elm" (some 5)
      = Except.error (ProcessError.tooLarge "big.elm" 10 5) :=
  ⟨((aggregation_is_successful_subset fsEx encodeEx ["a.elm", "big.elm"] (some 5)).2.1
      "big.elm" (ProcessError.tooLarge "big.elm" 10 5) rfl).1,
   (aggregation_is_successful_subset fsEx encodeEx ["a.elm", "big.elm"] (some 5)).2.2
      "big.elm" 10 5 (by decide) rfl (by decide)⟩

/-- C4: `process_file` classifies in source order — metadata failure first,
then the size limit (carrying actual size and limit), then read/decode
failure, and otherwise a `FileStat` counting the ordinary encoding of the
whole content. -/
theorem process_file_classification (fs : FsModel) (encode : String → List Nat)
    (p : String) (mb : Option Nat) :
    (fs.metadataLen p = none →
        process_file fs encode p mb
          = Except.error (ProcessError.metadata (fs.display p)))
    ∧ (∀ len limit, fs.metadataLen p = some len → mb = some limit → limit < len →
        process_file fs encode p mb
          = Except.error (ProcessError.tooLarge (fs.display p) len limit))
    ∧ (∀ len, fs.metadataLen p = some len →
        (∀ limit, mb = some limit → len ≤ limit) → fs.readToString p = none →
        process_file fs encode p mb = Except.error (ProcessError.read (fs.display p)))
    ∧ (∀ len contents, fs.metadataLen p = some len →
        (∀ limit, mb = some limit → len ≤ limit) →
        fs.readToString p = some contents →
        process_file fs encode p mb
          = Except.ok ⟨fs.display p, (encode contents).length⟩) := by
  refine ⟨?_, ?_, ?_, ?_⟩
  · intro h
    unfold process_file
    rw [h]
  · intro len limit hm hmb hlt
    subst hmb
    unfold process_file
    rw [hm]
    simp only [if_pos hlt]
  · intro len hm hlim hread
    cases mb with
    | none =>
      unfold process_file readAndCount
      rw [hm, hread]
    | some limit =>
      have hle : len ≤ limit := hlim limit rfl
      unfold process_file readAndCount
      rw [hm, hread]
      simp only [if_neg (Nat.not_lt.mpr hle)]
  · intro len contents hm hlim hread
    cases mb with
    | none =>
      unfold process_file readAndCount
      rw [hm, hread]
    | some limit =>
      have hle : len ≤ limit := hlim limit rfl
      unfold process_file readAndCount
      rw [hm, hread]
      simp only [if_neg (Nat.not_lt.mpr hle)]

/-- C4 witness: all four classifications on the concrete filesystem `fsEx`
with `--max-bytes 5`. -/
theorem process_file_classification_witness :
    process_file fsEx encodeEx "nometa.elm" (some 5)
      = Except.error (ProcessError.metadata "nometa.elm")
    ∧ process_file fsEx encodeEx "big.elm" (some 5)
      = Except.error (ProcessError.tooLarge "big.elm" 10 5)
    ∧ process_file fsEx encodeEx "bad.elm" (some 5)
      = Except.error (ProcessError.read "bad.elm")
    ∧ process_file fsEx encodeEx "a.elm" (some 5) = Except.ok ⟨"a.elm", 2⟩ :=
  ⟨(process_file_classification fsEx encodeEx "nometa.elm" (some 5)).1 (by decide),
   (process_file_classification fsEx encodeEx "big.elm" (some 5)).2.1
     10 5 (by decide) rfl (by decide),
   (process_file_classification fsEx encodeEx "bad.elm" (some 5)).2.2.1
     1 (by decide) (fun limit h => by injection h with h2; omega) (by decide),
   (process_file_classification fsEx encodeEx "a.elm" (some 5)).2.2.2
     1 "ab" (by decide) (fun limit h => by injection h with h2; omega) (by decide)⟩

/-- C5: the summary is computed from the whole successful set, whatever the
top-N limit and sort flag: `files` is its cardinality, `total` the sum of its
token counts, and `average` is `total / files` (`0` when there are no files). -/
theorem summary_over_full_set (stats : List FileStat) (sort : SortBy)
    (top : Option Nat) :
    (output_results stats sort top).2.files = stats.length
    ∧ (output_results stats sort top).2.total = (stats.map FileStat.tokens).sum
    ∧ (output_results stats sort top).2.average =
        (if stats.length = 0 then 0
         else ((stats.map FileStat.tokens).sum : ℚ) / (stats.length : ℚ)) := by
  refine ⟨rfl, rfl, ?_⟩
  by_cases h : stats.length = 0
  · simp [output_results, build_summary, h]
  · simp [output_results, build_summary, h, Nat.pos_of_ne_zero h]

/-- C6: a discovered file is admitted iff it has an extension whose ASCII
lowercasing lies in the configured set (built by stripping one leading dot and
lowercasing, defaulting to `elm`); files without an extension are always
skipped; `Only.elm` passes by default, `Extra.ts` only once `ts` is included,
and a configured `.TS` admits `file.ts`. -/
theorem extension_filtering_matches_config (incArg : List String) (name : String) :
    (extensionAdmits (include_extensions incArg) name = true ↔
       ∃ e, extensionOf name = some e ∧
         (include_extensions incArg).contains (lowerStr e) = true)
    ∧ (extensionOf name = none →
        extensionAdmits (include_extensions incArg) name = false)
    ∧ include_extensions [] = ["elm"]
    ∧ extensionAdmits (include_extensions []) "Only.elm" = true
    ∧ extensionAdmits (include_extensions []) "Extra.ts" = false
    ∧ extensionAdmits (include_extensions ["elm", "ts"]) "Extra.ts" = true
    ∧ extensionAdmits (include_extensions [".TS"]) "file.ts" = true := by
  refine ⟨?_, ?_, by decide, by decide, by decide, by decide, by decide⟩
  · cases h : extensionOf name with
    | none => simp [extensionAdmits, h]
    | some e => simp [extensionAdmits, h]
  · intro h
    simp [extensionAdmits, h]

/-- C6 witness: the no-extension clause discharged on the concrete file name
`noext`, next to the default-inclusion case. -/
theorem extension_filtering_matches_config_witness :
    extensionAdmits (include_extensions []) "noext" = false
    ∧ extensionAdmits (include_extensions []) "Only.elm" = true :=
  ⟨(extension_filtering_matches_config [] "noext").2.1 rfl,
   (extension_filtering_matches_config [] "Only.elm").2.2.2.1⟩

/-- C7: ndjson output is one line per displayed file, in display order,
followed by a summary line exactly when summary emission is enabled; emission
defaults to enabled and `--no-summary` overrides `--with-summary`. -/
theorem ndjson_structure_and_flags (stats : List FileStat) (s : Summary)
    (noS withS : Bool) :
    print_ndjson stats s (with_summary noS withS)
      = stats.map NdjsonLine.file ++ (if noS then [] else [NdjsonLine.summary s])
    ∧ with_summary false false = true
    ∧ with_summary false true = true
    ∧ with_summary true false = false
    ∧ with_summary true true = false := by
  refine ⟨?_, rfl, rfl, rfl, rfl⟩
  cases noS with
  | false => cases withS <;> rfl
  | true => cases withS <;> rfl

/-- C8 counterexample: the two collected lists are permutations of each other,
yet with `--sort path` (no top-N) the displayed lists differ — Rust's
`sort_by` is stable, so two entries sharing a path but differing in tokens
keep their collection order.  The claim fails for arbitrary permutations. -/
theorem display_order_depends_on_collection_order :
    List.Perm [(⟨"a", 1⟩ : FileStat), ⟨"a", 2⟩] [⟨"a", 2⟩, ⟨"a", 1⟩]
    ∧ (output_results [⟨"a", 1⟩, ⟨"a", 2⟩] SortBy.path none).1
        ≠ (output_results [⟨"a", 2⟩, ⟨"a", 1⟩] SortBy.path none).1 :=
  ⟨List.Perm.swap _ _ _, by decide⟩

/-- C8 (amended): for permuted inputs the summary always agrees, and the
ordered display list agrees provided no two distinct entries share a path
(which holds for any real run, since each discovered file contributes one
path). -/
theorem output_results_perm_invariant (stats stats' : List FileStat)
    (sort : SortBy) (top : Option Nat) (hperm : List.Perm stats stats') :
    (output_results stats sort top).2 = (output_results stats' sort top).2
    ∧ ((∀ a ∈ stats, ∀ b ∈ stats, a.path = b.path → a = b) →
        (output_results stats sort top).1 = (output_results stats' sort top).1) := by
  have htok : sortByTokens stats = sortByTokens stats' := sortByTokens_eq_of_perm hperm
  have hcounts : sortCounts (stats.map FileStat.tokens)
      = sortCounts (stats'.map FileStat.tokens) :=
    sortCounts_eq_of_perm (hperm.map FileStat.tokens)
  have hlen : stats.length = stats'.length := hperm.length_eq
  have hsum : (stats.map FileStat.tokens).sum = (stats'.map FileStat.tokens).sum :=
    (hperm.map FileStat.tokens).sum_eq
  constructor
  · show build_summary stats (top.map fun n => (sortByTokens stats).take n)
        = build_summary stats' (top.map fun n => (sortByTokens stats').take n)
    simp only [build_summary]
    rw [htok, hcounts, hlen, hsum]
  · intro hd
    show displayStats stats sort top = displayStats stats' sort top
    cases top with
    | some n =>
      show sortKeyed sort ((sortByTokens stats).take n)
          = sortKeyed sort ((sortByTokens stats').take n)
      rw [htok]
    | none =>
      cases sort with
      | path => exact sortByPath_eq_of_perm hperm hd
      | tokens => exact htok

/-- C8 witness: the amended invariance discharged on a concrete two-file
permutation with distinct paths. -/
theorem output_results_perm_invariant_witness :
    (output_results [⟨"a", 1⟩, ⟨"b", 2⟩] SortBy.path none).2
      = (output_results [⟨"b", 2⟩, ⟨"a", 1⟩] SortBy.path none).2
    ∧ (output_results [⟨"a", 1⟩, ⟨"b", 2⟩] SortBy.path none).1
      = (output_results [⟨"b", 2⟩, ⟨"a", 1⟩] SortBy.path none).1 :=
  ⟨(output_results_perm_invariant [⟨"a", 1⟩, ⟨"b", 2⟩] [⟨"b", 2⟩, ⟨"a", 1⟩]
      SortBy.path none (List.Perm.swap _ _ _)).1,
   (output_results_perm_invariant [⟨"a", 1⟩, ⟨"b", 2⟩] [⟨"b", 2⟩, ⟨"a", 1⟩]
      SortBy.path none (List.Perm.swap _ _ _)).2 (by decide)⟩

/-- C9: on a non-empty sorted slice and any percentile fraction in `[0, 1]`,
the computed index is within bounds, so the indexing in `percentile` never
leaves the slice and the function is total. -/
theorem percentile_index_total (l : List Nat) (p : ℚ) (hne : l ≠ [])
    (h0 : 0 ≤ p) (h1 : p ≤ 1) :
    ∃ h : percentileIndex l p < l.length,
      percentile l p = l.get ⟨percentileIndex l p, h⟩ := by
  have hlen : 0 < l.length := List.length_pos.mpr hne
  have hidx : percentileIndex l p < l.length := by
    unfold percentileIndex
    generalize ⌈p * (l.length : ℚ)⌉₊ = r
    omega
  refine ⟨hidx, ?_⟩
  have hemp : l.isEmpty = false := by
    cases l with
    | nil => exact absurd rfl hne
    | cons a t => rfl
  unfold percentile
  rw [hemp]
  simp only [Bool.false_eq_true, if_false]
  rw [List.getD_eq_getElem?_getD, List.getElem?_eq_getElem hidx]
  simp [List.get_eq_getElem]

/-- C9 witness: the in-bounds indexing discharged on the singleton slice `[5]`
at `p = 1/2`. -/
theorem percentile_index_total_witness :
    ([5] : List Nat) ≠ [] ∧ (0 : ℚ) ≤ 1 / 2 ∧ (1 / 2 : ℚ) ≤ 1
    ∧ ∃ h : percentileIndex [5] (1 / 2) < ([5] : List Nat).length,
        percentile [5] (1 / 2) = ([5] : List Nat).get ⟨percentileIndex [5] (1 / 2), h⟩ :=
  ⟨by decide, by norm_num, by norm_num,
   percentile_index_total [5] (1 / 2) (by decide) (by norm_num) (by norm_num)⟩

/-- C10: with `--top N` exactly `min N (number of successes)` entries are
displayed; `N` at least the number of successes displays every file, and
`N = 0` displays nothing while the ndjson summary line is still emitted under
the default summary setting. -/
theorem topN_display_length (stats : List FileStat) (sort : SortBy) (n : Nat)
    (s : Summary) (b : Bool) :
    (displayStats stats sort (some n)).length = min n stats.length
    ∧ (stats.length ≤ n → List.Perm (displayStats stats sort (some n)) stats)
    ∧ displayStats stats sort (some 0) = []
    ∧ print_ndjson (displayStats stats sort (some 0)) s (with_summary false b)
        = [NdjsonLine.summary s] := by
  refine ⟨?_, ?_, ?_, ?_⟩
  · cases sort <;>
      simp [displayStats, sortKeyed, sortByPath, sortByTokens,
        List.length_insertionSort, List.length_take]
  · intro h
    have htake : (sortByTokens stats).take n = sortByTokens stats :=
      List.take_of_length_le
        (by simpa [sortByTokens, List.length_insertionSort] using h)
    show List.Perm (sortKeyed sort ((sortByTokens stats).take n)) stats
    rw [htake]
    cases sort with
    | path =>
      exact (List.perm_insertionSort pathLe _).trans
        (List.perm_insertionSort tokenLe stats)
    | tokens =>
      exact (List.perm_insertionSort tokenLe _).trans
        (List.perm_insertionSort tokenLe stats)
  · cases sort <;> rfl
  · cases sort <;> cases b <;> rfl

/-- C10 witness: a top-N limit exceeding the file count displays every file,
discharged on a concrete singleton run. -/
theorem topN_display_length_witness :
    List.Perm (displayStats [⟨"a", 3⟩] SortBy.tokens (some 2)) [⟨"a", 3⟩] :=
  (topN_display_length [⟨"a", 3⟩] SortBy.tokens 2 (build_summary [] none) false).2.1
    (by decide)
